import Mathlib

/-!
Shallow embedding of the Tendermint-like consensus and p2p system
(Rust sources under `src/`): the round state machine
(`src/consensus/state.rs`, `src/consensus/types.rs`), the peer registry
(`src/p2p/peer.rs`), the wire messages (`src/p2p/message.rs`) and the
broadcast fan-out (`src/consensus/mod.rs`).

Rust `u64` is modelled as `Nat` (the round counter is only ever
incremented by one; its overflow is unreachable in any run of the
program and Rust checked arithmetic would abort rather than wrap).
Rust `HashMap<String, V>` is modelled as an association list
`List (String × V)` whose insert replaces the entry of an existing key;
the states produced by the program always have pairwise-distinct keys,
mirroring the hash map's one-slot-per-key representation.
-/

/-- Association-list lookup: first entry whose key matches, modelling
`HashMap::get`. -/
def mapLookup {β : Type} : List (String × β) → String → Option β
  | [], _ => none
  | (k', v) :: rest, k => if k' = k then some v else mapLookup rest k

/-- Association-list insert-or-replace, modelling `HashMap::insert`:
the entry of an existing key is overwritten in place, otherwise the new
entry is appended. -/
def mapInsert {β : Type} : List (String × β) → String → β → List (String × β)
  | [], k, v => [(k, v)]
  | (k', v') :: rest, k, v =>
      if k' = k then (k, v) :: rest else (k', v') :: mapInsert rest k v

/-- Number of entries carrying key `k`. A well-formed hash map holds at
most one. -/
def countKey {β : Type} (m : List (String × β)) (k : String) : Nat :=
  (m.filter (fun p => p.1 = k)).length

/-- Keys are pairwise distinct: the representation invariant every
`HashMap` state satisfies. -/
def KeysNodup {β : Type} (m : List (String × β)) : Prop :=
  (m.map Prod.fst).Nodup

instance {β : Type} (m : List (String × β)) : Decidable (KeysNodup m) := by
  unfold KeysNodup; infer_instance

/-- Step enum from `src/consensus/types.rs`: the consensus steps in a
simplified Tendermint-like round. -/
inductive Step where
  | Propose
  | Prevote
  | Precommit
  | Commit
deriving DecidableEq, Repr

/-- RoundState from `src/consensus/types.rs`: round number, step,
proposal, locked block and both vote maps. -/
structure RoundState where
  round : Nat
  step : Step
  proposal : Option String
  locked_block_hash : Option String
  prevotes : List (String × String)
  precommits : List (String × String)
deriving DecidableEq, Repr

/-- RoundState::new (also the intended value of the derived
`RoundState::default()` used by `ConsensusCore::new`): round = 0,
step = Propose, no proposal, no lock, empty votes. -/
def RoundState.new : RoundState :=
  { round := 0
    step := Step.Propose
    proposal := none
    locked_block_hash := none
    prevotes := []
    precommits := [] }

/-- ValidatorSet from `src/consensus/validator.rs`: a list of validator
ids. -/
structure ValidatorSet where
  validators : List String
deriving DecidableEq, Repr

/-- ValidatorSet::new_simple. -/
def ValidatorSet.new_simple (vs : List String) : ValidatorSet :=
  { validators := vs }

/-- ConsensusParams from `src/consensus/types.rs`; the `f32` threshold
0.67 is carried as a rational. It is never read by any handler. -/
structure ConsensusParams where
  quorum_threshold : Rat
deriving DecidableEq, Repr

/-- Default for ConsensusParams. -/
def ConsensusParams.default : ConsensusParams :=
  { quorum_threshold := 67 / 100 }

/-- ConsensusCore from `src/consensus/state.rs`: the local node's
consensus data. -/
structure ConsensusCore where
  node_id : String
  listen_addr : String
  validators : ValidatorSet
  round_state : RoundState
  params : ConsensusParams
deriving DecidableEq, Repr

/-- ConsensusCore::new: single-validator set containing the local node,
default round state and params. -/
def ConsensusCore.new (node_id listen_addr : String) : ConsensusCore :=
  { node_id := node_id
    listen_addr := listen_addr
    validators := ValidatorSet.new_simple [node_id]
    round_state := RoundState.new
    params := ConsensusParams.default }

/-- ConsensusCore::start_new_round: round+1, step Propose, proposal set,
lock cleared, both vote maps cleared. -/
def start_new_round (c : ConsensusCore) (block : String) : ConsensusCore :=
  { c with round_state :=
      { round := c.round_state.round + 1
        step := Step.Propose
        proposal := some block
        locked_block_hash := none
        prevotes := []
        precommits := [] } }

/-- ConsensusCore::on_proposal: ignore an older round, ignore when not
in the Propose step, otherwise accept the proposal. The Rust function
returns `Result<()>` and every path returns `Ok(())`; only the state
effect is modelled. -/
def on_proposal (c : ConsensusCore) (proposer_id : String) (round : Nat)
    (block : String) : ConsensusCore :=
  if round < c.round_state.round then c
  else if c.round_state.step ≠ Step.Propose then c
  else { c with round_state := { c.round_state with proposal := some block } }

/-- ConsensusCore::on_prevote: unconditionally store the prevote; the
`round` argument is unused by the body. Always returns `Ok(())`. -/
def on_prevote (c : ConsensusCore) (voter_id : String) (round : Nat)
    (block_hash : String) : ConsensusCore :=
  { c with round_state :=
      { c.round_state with
          prevotes := mapInsert c.round_state.prevotes voter_id block_hash } }

/-- ConsensusCore::on_precommit: unconditionally store the precommit;
the `round` argument is unused by the body. Always returns `Ok(())`. -/
def on_precommit (c : ConsensusCore) (voter_id : String) (round : Nat)
    (block_hash : String) : ConsensusCore :=
  { c with round_state :=
      { c.round_state with
          precommits := mapInsert c.round_state.precommits voter_id block_hash } }

/-- ConsensusCore::on_commit: observes the event only, no state
mutation. -/
def on_commit (c : ConsensusCore) (block_hash : String) (round : Nat) :
    ConsensusCore :=
  c

/-- The five mutating entry points of the core, as dispatched by
`process_p2p_message` and the round timer (`src/consensus/mod.rs`). -/
inductive Op where
  | start (block : String)
  | proposal (proposer_id : String) (round : Nat) (block : String)
  | prevote (voter_id : String) (round : Nat) (block_hash : String)
  | precommit (voter_id : String) (round : Nat) (block_hash : String)
  | commit (block_hash : String) (round : Nat)

/-- Apply one operation to the core. -/
def applyOp (c : ConsensusCore) : Op → ConsensusCore
  | Op.start b => start_new_round c b
  | Op.proposal pid r b => on_proposal c pid r b
  | Op.prevote v r h => on_prevote c v r h
  | Op.precommit v r h => on_precommit c v r h
  | Op.commit h r => on_commit c h r

/-- Apply a sequence of operations in order. -/
def applyOps (c : ConsensusCore) (ops : List Op) : ConsensusCore :=
  ops.foldl applyOp c

/-- P2PMessage from `src/p2p/message.rs`: the five wire message
variants. -/
inductive P2PMessage where
  | PeerInfo (node_id : String) (listen_addr : String)
  | Proposal (proposer_id : String) (round : Nat) (block : String)
  | Prevote (voter_id : String) (round : Nat) (block_hash : String)
  | Precommit (voter_id : String) (round : Nat) (block_hash : String)
  | Commit (block_hash : String) (round : Nat)
deriving DecidableEq, Repr

/-- P2PMessage::msg_type. -/
def P2PMessage.msg_type : P2PMessage → String
  | .PeerInfo _ _ => "PeerInfo"
  | .Proposal _ _ _ => "Proposal"
  | .Prevote _ _ _ => "Prevote"
  | .Precommit _ _ _ => "Precommit"
  | .Commit _ _ => "Commit"

/-- JSON values, the target of `serde_json` encoding. Objects carry
their fields in order; numbers are the unsigned integers that occur in
the protocol. -/
inductive Json where
  | str (s : String)
  | num (n : Nat)
  | obj (fields : List (String × Json))

/-- Read a JSON string. -/
def Json.asStr : Json → Option String
  | .str s => some s
  | _ => none

/-- Read a JSON number as an unsigned integer. -/
def Json.asNat : Json → Option Nat
  | .num n => some n
  | _ => none

/-- Serialization of a message by serde's derived `Serialize` with
external tagging: a single-key object whose key is the variant name and
whose value is the object of named fields, in declaration order. -/
def encodeP2P : P2PMessage → Json
  | .PeerInfo node_id listen_addr =>
      .obj [("PeerInfo", .obj [("node_id", .str node_id),
                               ("listen_addr", .str listen_addr)])]
  | .Proposal proposer_id round block =>
      .obj [("Proposal", .obj [("proposer_id", .str proposer_id),
                               ("round", .num round),
                               ("block", .str block)])]
  | .Prevote voter_id round block_hash =>
      .obj [("Prevote", .obj [("voter_id", .str voter_id),
                              ("round", .num round),
                              ("block_hash", .str block_hash)])]
  | .Precommit voter_id round block_hash =>
      .obj [("Precommit", .obj [("voter_id", .str voter_id),
                                ("round", .num round),
                                ("block_hash", .str block_hash)])]
  | .Commit block_hash round =>
      .obj [("Commit", .obj [("block_hash", .str block_hash),
                             ("round", .num round)])]

/-- Deserialization by serde's derived `Deserialize` with external
tagging: the value must be a single-key object whose key names a
variant; the variant's fields are looked up by name in the inner
object. Anything else fails. -/
def decodeP2P : Json → Option P2PMessage
  | .obj [(tag, .obj fields)] =>
      if tag = "PeerInfo" then do
        let node_id ← (mapLookup fields "node_id").bind Json.asStr
        let listen_addr ← (mapLookup fields "listen_addr").bind Json.asStr
        pure (.PeerInfo node_id listen_addr)
      else if tag = "Proposal" then do
        let proposer_id ← (mapLookup fields "proposer_id").bind Json.asStr
        let round ← (mapLookup fields "round").bind Json.asNat
        let block ← (mapLookup fields "block").bind Json.asStr
        pure (.Proposal proposer_id round block)
      else if tag = "Prevote" then do
        let voter_id ← (mapLookup fields "voter_id").bind Json.asStr
        let round ← (mapLookup fields "round").bind Json.asNat
        let block_hash ← (mapLookup fields "block_hash").bind Json.asStr
        pure (.Prevote voter_id round block_hash)
      else if tag = "Precommit" then do
        let voter_id ← (mapLookup fields "voter_id").bind Json.asStr
        let round ← (mapLookup fields "round").bind Json.asNat
        let block_hash ← (mapLookup fields "block_hash").bind Json.asStr
        pure (.Precommit voter_id round block_hash)
      else if tag = "Commit" then do
        let block_hash ← (mapLookup fields "block_hash").bind Json.asStr
        let round ← (mapLookup fields "round").bind Json.asNat
        pure (.Commit block_hash round)
      else none
  | _ => none

/-- Peer from `src/p2p/peer.rs`. -/
structure Peer where
  id : String
  listen_addr : String
deriving DecidableEq, Repr

/-- Peer::new. -/
def Peer.new (id addr : String) : Peer :=
  { id := id, listen_addr := addr }

/-- The `PeerManager`'s inner `HashMap<String, Peer>`, keyed by peer
id. -/
abbrev PeerMap : Type := List (String × Peer)

/-- PeerManager::add_peer: `map.insert(peer.id.clone(), peer)`. -/
def add_peer (m : PeerMap) (p : Peer) : PeerMap :=
  mapInsert m p.id p

/-- PeerManager::get_all_peers: a copy of the stored values
(`map.values().cloned().collect()`). -/
def get_all_peers (m : PeerMap) : List Peer :=
  m.map Prod.snd

/-- Registry reached from `PeerManager::new()` (empty) by a sequence of
`add_peer` calls, in order. -/
def add_peer_all (ps : List Peer) : PeerMap :=
  ps.foldl add_peer []

/-- The last peer in `ps` whose id is `id`: the most recent `add_peer`
call for that id. -/
def lastWrite (ps : List Peer) (id : String) : Option Peer :=
  ps.foldl (fun acc p => if p.id = id then some p else acc) none

/-- ConsensusState::broadcast_message from `src/consensus/mod.rs`,
observed through the send attempts it spawns: for each peer of the
registry snapshot, its address is parsed (a parse failure logs a
warning and skips that peer); for each parsed address one send task is
spawned, whose success or failure (`send a`) is logged inside the task
and discarded. The Rust function returns `()` — its type has no error
to return to the caller; the returned list here is the log of attempted
sends paired with each attempt's outcome. -/
def broadcast_message (parse : String → Option String) (send : String → Bool)
    (peers : List Peer) : List (String × Bool) :=
  peers.filterMap (fun p => (parse p.listen_addr).map (fun a => (a, send a)))

/-- A sample mid-round core state used to instantiate theorems: round
5, step Propose, a proposal and one recorded prevote. -/
def sampleCore : ConsensusCore :=
  { node_id := "n1"
    listen_addr := "127.0.0.1:7000"
    validators := ValidatorSet.new_simple ["n1"]
    round_state :=
      { round := 5
        step := Step.Propose
        proposal := some "blk5"
        locked_block_hash := some "lock5"
        prevotes := [("v1", "h1")]
        precommits := [("v1", "g1")] }
    params := ConsensusParams.default }

/-- A sample core state that is not in the Propose step. -/
def sampleCoreCommit : ConsensusCore :=
  { sampleCore with round_state := { sampleCore.round_state with step := Step.Commit } }

/-- C1: start_new_round increments the round by exactly one, enters the
Propose step, stores the given block as the proposal, clears the lock
and empties both vote maps, for every prior state and block string,
unconditionally. -/
theorem start_new_round_resets (c : ConsensusCore) (b : String) :
    (start_new_round c b).round_state.round = c.round_state.round + 1 ∧
    (start_new_round c b).round_state.step = Step.Propose ∧
    (start_new_round c b).round_state.proposal = some b ∧
    (start_new_round c b).round_state.locked_block_hash = none ∧
    (start_new_round c b).round_state.prevotes = [] ∧
    (start_new_round c b).round_state.precommits = [] :=
  ⟨rfl, rfl, rfl, rfl, rfl, rfl⟩

/-- Inserting key `k` makes lookup of `k` return the new value. -/
theorem mapLookup_mapInsert_self {β : Type} (m : List (String × β)) (k : String) (v : β) :
    mapLookup (mapInsert m k v) k = some v := by
  induction m with
  | nil => simp [mapInsert, mapLookup]
  | cons p rest ih =>
      obtain ⟨k', v'⟩ := p
      by_cases hk : k' = k
      · simp [mapInsert, hk, mapLookup]
      · simp [mapInsert, hk, mapLookup, ih]

/-- A consed entry with distinct keys: head key absent from the tail,
tail keys distinct. -/
theorem keysNodup_cons {β : Type} (k' : String) (v' : β) (rest : List (String × β)) :
    KeysNodup ((k', v') :: rest) ↔ k' ∉ rest.map Prod.fst ∧ KeysNodup rest := by
  unfold KeysNodup
  rw [List.map_cons, List.nodup_cons]

/-- Inserting key `k` leaves lookup of any other key unchanged. -/
theorem mapLookup_mapInsert_ne {β : Type} (m : List (String × β)) (k k' : String) (v : β)
    (h : k' ≠ k) : mapLookup (mapInsert m k v) k' = mapLookup m k' := by
  have hkk : ¬ k = k' := fun he => h he.symm
  induction m with
  | nil => simp [mapInsert, mapLookup, hkk]
  | cons p rest ih =>
      obtain ⟨a, b⟩ := p
      by_cases ha : a = k
      · subst ha
        simp [mapInsert, mapLookup, hkk]
      · simp [mapInsert, ha, mapLookup, ih]

/-- The keys after an insert are the old keys plus `k`. -/
theorem mem_keys_mapInsert {β : Type} (m : List (String × β)) (k a : String) (v : β) :
    a ∈ (mapInsert m k v).map Prod.fst ↔ a = k ∨ a ∈ m.map Prod.fst := by
  induction m with
  | nil => simp [mapInsert]
  | cons p rest ih =>
      obtain ⟨k', v'⟩ := p
      by_cases hk : k' = k
      · subst hk
        simp [mapInsert]
      · simp only [mapInsert, if_neg hk, List.map_cons, List.mem_cons, ih]
        tauto

/-- Insert preserves distinctness of keys. -/
theorem keysNodup_mapInsert {β : Type} (m : List (String × β)) (k : String) (v : β)
    (h : KeysNodup m) : KeysNodup (mapInsert m k v) := by
  induction m with
  | nil => simp [mapInsert, KeysNodup]
  | cons p rest ih =>
      obtain ⟨k', v'⟩ := p
      obtain ⟨h1, h2⟩ := (keysNodup_cons k' v' rest).mp h
      by_cases hk : k' = k
      · subst hk
        simpa [mapInsert] using (keysNodup_cons k' v rest).mpr ⟨h1, h2⟩
      · have h3 : KeysNodup (mapInsert rest k v) := ih h2
        have h4 : k' ∉ (mapInsert rest k v).map Prod.fst := by
          intro hmem
          rcases (mem_keys_mapInsert rest k k' v).mp hmem with h5 | h5
          · exact hk h5
          · exact h1 h5
        simpa [mapInsert, hk] using
          (keysNodup_cons k' v' (mapInsert rest k v)).mpr ⟨h4, h3⟩

/-- A key absent from a map has no entries. -/
theorem countKey_eq_zero {β : Type} (m : List (String × β)) (k : String)
    (h : k ∉ m.map Prod.fst) : countKey m k = 0 := by
  induction m with
  | nil => simp [countKey]
  | cons p rest ih =>
      obtain ⟨k', v'⟩ := p
      rw [List.map_cons] at h
      have h1 : ¬ (k' = k) := fun he => h (by simp [he])
      have h2 : k ∉ rest.map Prod.fst := fun hm => h (List.mem_cons_of_mem _ hm)
      simpa [countKey, List.filter_cons, h1] using ih h2

/-- After inserting key `k` into a map with distinct keys, exactly one
entry carries `k`. -/
theorem countKey_mapInsert_self {β : Type} (m : List (String × β)) (k : String) (v : β)
    (h : KeysNodup m) : countKey (mapInsert m k v) k = 1 := by
  induction m with
  | nil => simp [mapInsert, countKey]
  | cons p rest ih =>
      obtain ⟨k', v'⟩ := p
      obtain ⟨h1, h2⟩ := (keysNodup_cons k' v' rest).mp h
      by_cases hk : k' = k
      · subst hk
        have hz : countKey rest k' = 0 := countKey_eq_zero rest k' h1
        simpa [mapInsert, countKey, List.filter_cons] using hz
      · simpa [mapInsert, countKey, List.filter_cons, hk] using ih h2

/-- C2: on_proposal leaves the state unchanged when the message round is
older than the current round or the step is not Propose; otherwise it
replaces the stored proposal unconditionally, and the proposer identity
is never examined. -/
theorem on_proposal_spec (c : ConsensusCore) (pid pid' : String) (r : Nat) (b : String) :
    ((r < c.round_state.round ∨ c.round_state.step ≠ Step.Propose) →
      on_proposal c pid r b = c) ∧
    (c.round_state.round ≤ r → c.round_state.step = Step.Propose →
      on_proposal c pid r b =
        { c with round_state := { c.round_state with proposal := some b } }) ∧
    on_proposal c pid r b = on_proposal c pid' r b := by
  refine ⟨?_, ?_, rfl⟩
  · rintro (h | h)
    · simp [on_proposal, h]
    · by_cases hr : r < c.round_state.round <;> simp [on_proposal, hr, h]
  · intro h1 h2
    have hr : ¬ r < c.round_state.round := not_lt.mpr h1
    simp [on_proposal, hr, h2]

/-- Witness for the on_proposal case split: a stale round (3 against
current round 5) and a wrong step each leave the state unchanged, and a
current-or-newer round in the Propose step stores the block. -/
theorem on_proposal_spec_witness :
    on_proposal sampleCore "p1" 3 "stale-block" = sampleCore ∧
    on_proposal sampleCoreCommit "p1" 9 "b9" = sampleCoreCommit ∧
    on_proposal sampleCore "p1" 7 "b7" =
      { sampleCore with round_state :=
          { sampleCore.round_state with proposal := some "b7" } } :=
  ⟨(on_proposal_spec sampleCore "p1" "p2" 3 "stale-block").1 (Or.inl (by decide)),
   (on_proposal_spec sampleCoreCommit "p1" "p2" 9 "b9").1 (Or.inr (by decide)),
   (on_proposal_spec sampleCore "p1" "p2" 7 "b7").2.1 (by decide) (by decide)⟩

/-- C10: an accepted proposal (round at least the current round, step
Propose) modifies only the proposal field; in particular the node's
round is not advanced to the message's round. -/
theorem on_proposal_accept_frame (c : ConsensusCore) (pid : String) (r : Nat) (b : String)
    (h1 : c.round_state.round ≤ r) (h2 : c.round_state.step = Step.Propose) :
    (on_proposal c pid r b).round_state.proposal = some b ∧
    (on_proposal c pid r b).round_state.round = c.round_state.round ∧
    (on_proposal c pid r b).round_state.step = c.round_state.step ∧
    (on_proposal c pid r b).round_state.locked_block_hash =
      c.round_state.locked_block_hash ∧
    (on_proposal c pid r b).round_state.prevotes = c.round_state.prevotes ∧
    (on_proposal c pid r b).round_state.precommits = c.round_state.precommits ∧
    (on_proposal c pid r b).node_id = c.node_id ∧
    (on_proposal c pid r b).listen_addr = c.listen_addr ∧
    (on_proposal c pid r b).validators = c.validators ∧
    (on_proposal c pid r b).params = c.params := by
  have hr : ¬ r < c.round_state.round := not_lt.mpr h1
  simp [on_proposal, hr, h2]

/-- Witness for the acceptance frame: a proposal for round 7 against
current round 5 is stored, yet the round stays 5 and every other field
keeps its value. -/
theorem on_proposal_accept_frame_witness :
    sampleCore.round_state.round ≤ 7 ∧
    ((on_proposal sampleCore "p1" 7 "b7").round_state.proposal = some "b7" ∧
     (on_proposal sampleCore "p1" 7 "b7").round_state.round =
       sampleCore.round_state.round ∧
     (on_proposal sampleCore "p1" 7 "b7").round_state.step =
       sampleCore.round_state.step ∧
     (on_proposal sampleCore "p1" 7 "b7").round_state.locked_block_hash =
       sampleCore.round_state.locked_block_hash ∧
     (on_proposal sampleCore "p1" 7 "b7").round_state.prevotes =
       sampleCore.round_state.prevotes ∧
     (on_proposal sampleCore "p1" 7 "b7").round_state.precommits =
       sampleCore.round_state.precommits ∧
     (on_proposal sampleCore "p1" 7 "b7").node_id = sampleCore.node_id ∧
     (on_proposal sampleCore "p1" 7 "b7").listen_addr = sampleCore.listen_addr ∧
     (on_proposal sampleCore "p1" 7 "b7").validators = sampleCore.validators ∧
     (on_proposal sampleCore "p1" 7 "b7").params = sampleCore.params) :=
  ⟨by decide, on_proposal_accept_frame sampleCore "p1" 7 "b7" (by decide) (by decide)⟩

/-- C3: on_prevote upserts the voter's entry in the prevotes map
(overwriting, keeping exactly one entry per voter of a well-formed map)
and changes nothing else; the round argument has no effect. The same
holds for on_precommit into the precommits map. -/
theorem on_vote_upsert (c : ConsensusCore) (v : String) (r r' : Nat) (h : String)
    (hpv : KeysNodup c.round_state.prevotes)
    (hpc : KeysNodup c.round_state.precommits) :
    mapLookup (on_prevote c v r h).round_state.prevotes v = some h ∧
    (∀ w, w ≠ v → mapLookup (on_prevote c v r h).round_state.prevotes w =
      mapLookup c.round_state.prevotes w) ∧
    countKey (on_prevote c v r h).round_state.prevotes v = 1 ∧
    KeysNodup (on_prevote c v r h).round_state.prevotes ∧
    (on_prevote c v r h).round_state.round = c.round_state.round ∧
    (on_prevote c v r h).round_state.step = c.round_state.step ∧
    (on_prevote c v r h).round_state.proposal = c.round_state.proposal ∧
    (on_prevote c v r h).round_state.locked_block_hash =
      c.round_state.locked_block_hash ∧
    (on_prevote c v r h).round_state.precommits = c.round_state.precommits ∧
    on_prevote c v r h = on_prevote c v r' h ∧
    mapLookup (on_precommit c v r h).round_state.precommits v = some h ∧
    (∀ w, w ≠ v → mapLookup (on_precommit c v r h).round_state.precommits w =
      mapLookup c.round_state.precommits w) ∧
    countKey (on_precommit c v r h).round_state.precommits v = 1 ∧
    KeysNodup (on_precommit c v r h).round_state.precommits ∧
    (on_precommit c v r h).round_state.round = c.round_state.round ∧
    (on_precommit c v r h).round_state.step = c.round_state.step ∧
    (on_precommit c v r h).round_state.proposal = c.round_state.proposal ∧
    (on_precommit c v r h).round_state.locked_block_hash =
      c.round_state.locked_block_hash ∧
    (on_precommit c v r h).round_state.prevotes = c.round_state.prevotes ∧
    on_precommit c v r h = on_precommit c v r' h :=
  ⟨mapLookup_mapInsert_self _ _ _,
   fun w hw => mapLookup_mapInsert_ne _ _ _ _ hw,
   countKey_mapInsert_self _ _ _ hpv,
   keysNodup_mapInsert _ _ _ hpv,
   rfl, rfl, rfl, rfl, rfl, rfl,
   mapLookup_mapInsert_self _ _ _,
   fun w hw => mapLookup_mapInsert_ne _ _ _ _ hw,
   countKey_mapInsert_self _ _ _ hpc,
   keysNodup_mapInsert _ _ _ hpc,
   rfl, rfl, rfl, rfl, rfl, rfl⟩

/-- Witness for the vote upsert: voter "v1" already has an entry in
sampleCore; a second prevote overwrites it, the map keeps exactly one
"v1" entry, and a precommit leaves the prevotes map untouched. -/
theorem on_vote_upsert_witness :
    KeysNodup sampleCore.round_state.prevotes ∧
    mapLookup (on_prevote sampleCore "v1" 1 "h2").round_state.prevotes "v1" = some "h2" ∧
    countKey (on_prevote sampleCore "v1" 1 "h2").round_state.prevotes "v1" = 1 ∧
    (on_precommit sampleCore "v1" 1 "h2").round_state.prevotes =
      sampleCore.round_state.prevotes ∧
    on_prevote sampleCore "v1" 1 "h2" = on_prevote sampleCore "v1" 2 "h2" := by
  obtain ⟨a1, a2, a3, a4, a5, a6, a7, a8, a9, a10, b1, b2, b3, b4, b5, b6, b7, b8, b9, b10⟩ :=
    on_vote_upsert sampleCore "v1" 1 2 "h2" (by decide) (by decide)
  exact ⟨by decide, a1, a3, b9, a10⟩

/-- Each single operation keeps the step at Propose when it was
Propose: start_new_round sets it to Propose, the handlers never write
it. -/
theorem step_applyOp (c : ConsensusCore) (o : Op)
    (h : c.round_state.step = Step.Propose) :
    (applyOp c o).round_state.step = Step.Propose := by
  cases o with
  | start b => rfl
  | proposal pid r b =>
      by_cases hr : r < c.round_state.round
      · simpa [applyOp, on_proposal, hr] using h
      · simp [applyOp, on_proposal, hr, h]
  | prevote v r bh => simpa [applyOp, on_prevote] using h
  | precommit v r bh => simpa [applyOp, on_precommit] using h
  | commit bh r => simpa [applyOp, on_commit] using h

/-- C4: from a freshly constructed node, every sequence of operations
leaves the step field equal to Propose — no operation ever sets it to
Prevote, Precommit or Commit. -/
theorem step_always_propose (nid addr : String) (ops : List Op) :
    (applyOps (ConsensusCore.new nid addr) ops).round_state.step = Step.Propose := by
  have key : ∀ (l : List Op) (c : ConsensusCore),
      c.round_state.step = Step.Propose →
      (applyOps c l).round_state.step = Step.Propose := by
    intro l
    induction l with
    | nil => intro c h; exact h
    | cons o rest ih => intro c h; exact ih (applyOp c o) (step_applyOp c o h)
  exact key ops (ConsensusCore.new nid addr) rfl

/-- C5: the round never decreases: each single operation, applied to
any state (in particular to any reachable state), yields a round at
least the prior round, and so does any sequence of operations. -/
theorem round_monotone (c : ConsensusCore) (o : Op) (ops : List Op) :
    c.round_state.round ≤ (applyOp c o).round_state.round ∧
    c.round_state.round ≤ (applyOps c ops).round_state.round := by
  have single : ∀ (d : ConsensusCore) (op : Op),
      d.round_state.round ≤ (applyOp d op).round_state.round := by
    intro d op
    cases op with
    | start b => exact Nat.le_succ _
    | proposal pid r b =>
        by_cases hr : r < d.round_state.round
        · simp [applyOp, on_proposal, hr]
        · by_cases hs : d.round_state.step = Step.Propose <;>
            simp [applyOp, on_proposal, hr, hs]
    | prevote v r bh => exact le_refl _
    | precommit v r bh => exact le_refl _
    | commit bh r => exact le_refl _
  refine ⟨single c o, ?_⟩
  have key : ∀ (l : List Op) (d : ConsensusCore),
      d.round_state.round ≤ (applyOps d l).round_state.round := by
    intro l
    induction l with
    | nil => intro d; exact le_refl _
    | cons op rest ih =>
        intro d
        exact le_trans (single d op) (ih (applyOp d op))
  exact key ops c

/-- C9: a freshly constructed node has round 0, step Propose, no
proposal, no lock and empty vote maps; the first started round is
round 1, and a proposal is accepted before any round has been
started. -/
theorem fresh_core_state (nid addr pid : String) (r : Nat) (b blk : String) :
    (ConsensusCore.new nid addr).round_state.round = 0 ∧
    (ConsensusCore.new nid addr).round_state.step = Step.Propose ∧
    (ConsensusCore.new nid addr).round_state.proposal = none ∧
    (ConsensusCore.new nid addr).round_state.locked_block_hash = none ∧
    (ConsensusCore.new nid addr).round_state.prevotes = [] ∧
    (ConsensusCore.new nid addr).round_state.precommits = [] ∧
    (start_new_round (ConsensusCore.new nid addr) blk).round_state.round = 1 ∧
    (on_proposal (ConsensusCore.new nid addr) pid r b).round_state.proposal = some b := by
  refine ⟨rfl, rfl, rfl, rfl, rfl, rfl, rfl, ?_⟩
  have hr : ¬ r < (ConsensusCore.new nid addr).round_state.round := by
    simp [ConsensusCore.new, RoundState.new]
  simp [on_proposal, hr, ConsensusCore.new, RoundState.new]

/-- C6: serializing any of the five message variants to its
externally-tagged JSON form and deserializing it again reproduces the
message, every field included. -/
theorem encode_decode_roundtrip (m : P2PMessage) : decodeP2P (encodeP2P m) = some m := by
  cases m <;> rfl

/-- An entry of an insert result is the inserted pair or an original
entry. -/
theorem mem_mapInsert {β : Type} (m : List (String × β)) (k : String) (v : β)
    (q : String × β) (hq : q ∈ mapInsert m k v) : q = (k, v) ∨ q ∈ m := by
  induction m with
  | nil => simpa [mapInsert] using hq
  | cons p rest ih =>
      obtain ⟨k', v'⟩ := p
      by_cases hk : k' = k
      · subst hk
        rcases (by simpa [mapInsert] using hq : q = (k', v) ∨ q ∈ rest) with h | h
        · exact Or.inl h
        · exact Or.inr (List.mem_cons_of_mem _ h)
      · rcases (by simpa [mapInsert, hk] using hq : q = (k', v') ∨ q ∈ mapInsert rest k v) with h | h
        · exact Or.inr (by simp [h])
        · rcases ih h with h' | h'
          · exact Or.inl h'
          · exact Or.inr (List.mem_cons_of_mem _ h')

/-- In a map with distinct keys, membership of an entry is the same as
lookup returning its value. -/
theorem mem_iff_mapLookup {β : Type} (m : List (String × β)) (hnd : KeysNodup m)
    (k : String) (v : β) : (k, v) ∈ m ↔ mapLookup m k = some v := by
  induction m with
  | nil => simp [mapLookup]
  | cons p rest ih =>
      obtain ⟨k', v'⟩ := p
      obtain ⟨h1, h2⟩ := (keysNodup_cons k' v' rest).mp hnd
      by_cases hk : k' = k
      · subst hk
        simp only [mapLookup, if_pos rfl, List.mem_cons]
        constructor
        · rintro (h | h)
          · simp [Prod.ext_iff] at h
            simp [h]
          · exact absurd (List.mem_map_of_mem Prod.fst h) h1
        · intro h
          simp at h
          simp [h]
      · simp only [mapLookup, if_neg hk, List.mem_cons]
        rw [← ih h2]
        constructor
        · rintro (h | h)
          · exact absurd (congrArg Prod.fst h.symm) hk
          · exact h
        · exact Or.inr

/-- Lookup in a registry built by a run of add_peer calls from any
start: the last write for the id wins, else the start map's entry. -/
theorem mapLookup_add_peer_foldl (ps : List Peer) :
    ∀ (m : PeerMap) (id : String),
      mapLookup (ps.foldl add_peer m) id =
        ps.foldl (fun acc p => if p.id = id then some p else acc) (mapLookup m id) := by
  induction ps with
  | nil => intro m id; rfl
  | cons p rest ih =>
      intro m id
      have hstep : mapLookup (add_peer m p) id =
          if p.id = id then some p else mapLookup m id := by
        by_cases hp : p.id = id
        · rw [if_pos hp, ← hp]
          exact mapLookup_mapInsert_self m p.id p
        · rw [if_neg hp]
          exact mapLookup_mapInsert_ne m p.id id p (fun h => hp h.symm)
      rw [List.foldl_cons, ih, hstep, List.foldl_cons]

/-- A run of add_peer calls preserves distinctness of registry keys. -/
theorem keysNodup_add_peer_foldl (ps : List Peer) :
    ∀ (m : PeerMap), KeysNodup m → KeysNodup (ps.foldl add_peer m) := by
  induction ps with
  | nil => intro m h; exact h
  | cons p rest ih =>
      intro m h
      exact ih (add_peer m p) (keysNodup_mapInsert m p.id p h)

/-- Every registry entry built by add_peer calls is keyed by its peer's
id. -/
theorem entries_keyed_by_id (ps : List Peer) :
    ∀ (m : PeerMap), (∀ q ∈ m, (q.2 : Peer).id = q.1) →
      ∀ q ∈ ps.foldl add_peer m, (q.2 : Peer).id = q.1 := by
  induction ps with
  | nil => intro m h; exact h
  | cons p rest ih =>
      intro m h
      refine ih (add_peer m p) ?_
      intro q hq
      rcases mem_mapInsert m p.id p q hq with h' | h'
      · simp [h']
      · exact h q h'

/-- A registry key is an id that some add_peer call supplied. -/
theorem mem_keys_add_peer_foldl (ps : List Peer) :
    ∀ (m : PeerMap) (a : String),
      a ∈ (ps.foldl add_peer m).map Prod.fst ↔
        a ∈ m.map Prod.fst ∨ a ∈ ps.map Peer.id := by
  induction ps with
  | nil => intro m a; simp
  | cons p rest ih =>
      intro m a
      rw [List.foldl_cons, ih]
      rw [show add_peer m p = mapInsert m p.id p from rfl]
      rw [mem_keys_mapInsert]
      simp
      tauto

/-- C7: from an empty registry, any sequence of add_peer calls yields a
registry with exactly one entry per distinct id ever added; its entry is
the peer of the most recent add_peer call with that id; no peer is ever
removed; get_all_peers returns the stored values. -/
theorem peer_registry_spec (ps : List Peer) :
    KeysNodup (add_peer_all ps) ∧
    (∀ id, id ∈ (add_peer_all ps).map Prod.fst ↔ id ∈ ps.map Peer.id) ∧
    (∀ id, mapLookup (add_peer_all ps) id = lastWrite ps id) ∧
    (∀ p : Peer, p ∈ get_all_peers (add_peer_all ps) ↔ lastWrite ps p.id = some p) ∧
    ((get_all_peers (add_peer_all ps)).map Peer.id).Nodup := by
  have hnd : KeysNodup (add_peer_all ps) :=
    keysNodup_add_peer_foldl ps [] (by simp [KeysNodup])
  have hid : ∀ q ∈ add_peer_all ps, (q.2 : Peer).id = q.1 :=
    entries_keyed_by_id ps [] (by intro q hq; cases hq)
  have hlook : ∀ id, mapLookup (add_peer_all ps) id = lastWrite ps id := by
    intro id
    have := mapLookup_add_peer_foldl ps [] id
    simpa [add_peer_all, lastWrite, mapLookup] using this
  refine ⟨hnd, ?_, hlook, ?_, ?_⟩
  · intro id
    have := mem_keys_add_peer_foldl ps [] id
    simpa [add_peer_all] using this
  · intro p
    constructor
    · intro hp
      obtain ⟨q, hq, hq2⟩ := List.mem_map.mp hp
      have hkey : q.1 = p.id := by rw [← hq2]; exact (hid q hq).symm
      have hmem : (p.id, p) ∈ add_peer_all ps := by
        have : q = (p.id, p) := by
          obtain ⟨a, b⟩ := q
          simp at hq2 hkey
          simp [hq2, hkey]
        rwa [this] at hq
      rw [← hlook p.id]
      exact (mem_iff_mapLookup (add_peer_all ps) hnd p.id p).mp hmem
    · intro hl
      have hmem : (p.id, p) ∈ add_peer_all ps :=
        (mem_iff_mapLookup (add_peer_all ps) hnd p.id p).mpr
          (by rw [hlook p.id]; exact hl)
      exact List.mem_map.mpr ⟨(p.id, p), hmem, rfl⟩
  · have hcongr : (add_peer_all ps).map (fun q => (q.2 : Peer).id) =
        (add_peer_all ps).map Prod.fst :=
      List.map_congr_left hid
    have : (get_all_peers (add_peer_all ps)).map Peer.id =
        (add_peer_all ps).map Prod.fst := by
      rw [get_all_peers, List.map_map]
      exact hcongr
    rw [this]
    exact hnd

/-- Witness for the registry spec: registering id "A" twice with two
addresses leaves one entry for "A" carrying the second address. -/
theorem peer_registry_spec_witness :
    mapLookup (add_peer_all [Peer.new "A" "10.0.0.1:7000", Peer.new "A" "10.0.0.1:7001"]) "A" =
      lastWrite [Peer.new "A" "10.0.0.1:7000", Peer.new "A" "10.0.0.1:7001"] "A" ∧
    lastWrite [Peer.new "A" "10.0.0.1:7000", Peer.new "A" "10.0.0.1:7001"] "A" =
      some (Peer.new "A" "10.0.0.1:7001") ∧
    get_all_peers (add_peer_all [Peer.new "A" "10.0.0.1:7000", Peer.new "A" "10.0.0.1:7001"]) =
      [Peer.new "A" "10.0.0.1:7001"] :=
  ⟨(peer_registry_spec [Peer.new "A" "10.0.0.1:7000", Peer.new "A" "10.0.0.1:7001"]).2.2.1 "A",
   by decide, by decide⟩

/-- The attempted send targets are the parsed peer addresses, whatever
each send's outcome: no send failure removes or blocks another
attempt. -/
theorem broadcast_targets_indep (parse : String → Option String)
    (send : String → Bool) (peers : List Peer) :
    (broadcast_message parse send peers).map Prod.fst =
      peers.filterMap (fun p => parse p.listen_addr) := by
  induction peers with
  | nil => rfl
  | cons p rest ih =>
      cases hp : parse p.listen_addr with
      | none => simpa [broadcast_message, List.filterMap_cons, hp] using ih
      | some a => simpa [broadcast_message, List.filterMap_cons, hp] using ih

/-- C8: broadcasting to N registered peers whose addresses parse spawns
exactly N send attempts, one per peer; the set of attempts is the same
under any outcomes of the individual sends (one failing send prevents
no other attempt); the call itself never produces an error, every
argument yielding a plain attempt log. -/
theorem broadcast_spec (parse : String → Option String)
    (send send' : String → Bool) (peers : List Peer)
    (hall : ∀ p ∈ peers, (parse p.listen_addr).isSome) :
    (broadcast_message parse send peers).length = peers.length ∧
    (broadcast_message parse send peers).map Prod.fst =
      (broadcast_message parse send' peers).map Prod.fst := by
  constructor
  · induction peers with
    | nil => rfl
    | cons p rest ih =>
        have hp : (parse p.listen_addr).isSome := hall p (List.mem_cons_self p rest)
        obtain ⟨a, ha⟩ := Option.isSome_iff_exists.mp hp
        have hrest : ∀ q ∈ rest, (parse q.listen_addr).isSome :=
          fun q hq => hall q (List.mem_cons_of_mem p hq)
        simpa [broadcast_message, List.filterMap_cons, ha] using ih hrest
  · rw [broadcast_targets_indep parse send peers,
        broadcast_targets_indep parse send' peers]

/-- Witness for the broadcast spec: two peers, a send oracle that fails
on every address and one that succeeds on every address give the same
two attempts. -/
theorem broadcast_spec_witness :
    (∀ p ∈ [Peer.new "A" "addr1", Peer.new "B" "addr2"],
      ((fun s => some s) p.listen_addr).isSome) ∧
    ((broadcast_message (fun s => some s) (fun _ => false)
        [Peer.new "A" "addr1", Peer.new "B" "addr2"]).length =
      [Peer.new "A" "addr1", Peer.new "B" "addr2"].length ∧
    (broadcast_message (fun s => some s) (fun _ => false)
        [Peer.new "A" "addr1", Peer.new "B" "addr2"]).map Prod.fst =
      (broadcast_message (fun s => some s) (fun _ => true)
        [Peer.new "A" "addr1", Peer.new "B" "addr2"]).map Prod.fst) :=
  ⟨by simp, broadcast_spec (fun s => some s) (fun _ => false) (fun _ => true)
    [Peer.new "A" "addr1", Peer.new "B" "addr2"] (by simp)⟩
